import Mathlib

/-!
Verification of the nested-comment subsystem of the Qanda forum client
(`frontend/src/main.js`).

The development embeds the comment-tree renderer, the reply/edit slot
positioning logic, the cascading delete walk and the comment click handlers
as pure Lean functions over an explicit model of the comment container DOM.

Modelling conventions:
* A fetched comment record (`Comment`) carries the fields consumed by the
  renderer; `createdAt` is the millisecond timestamp obtained from
  `new Date(...)`.
* A rendered comment box (`RNode`) carries the data attributes, inline
  styles and text content that the code reads back from the DOM.
* The comment container `UI.threadComments` is a `List Elem` of children in
  document order; an `Elem` is either a rendered comment box or the
  singleton reply/edit slot (`#reply-box`).
* `parseInt(style.marginLeft.slice(0, -2), 10)` is modelled by
  `elemMarginLeft : Elem → Option Nat`; `none` plays the role of `NaN`
  (the reply slot never has an inline `marginLeft`), and every comparison
  against `NaN` is false, exactly as in JS.
* The recursive renderer `displayCommentRecursive` has no structural
  termination measure in JS (a cyclic `parentCommentId` chain diverges), so
  its embedding takes an explicit fuel argument.  `displayComments` passes
  fuel `length + 2`, which exceeds any possible nesting depth of an acyclic
  list, so on forests the embedding computes exactly what the JS computes;
  on cyclic inputs, where the JS diverges, the embedding truncates.
-/

/-- A comment record as fetched from `GET comments?threadId=`.  `createdAt`
is the numeric value of `new Date(record.createdAt)` in milliseconds. -/
structure Comment where
  id : Int
  parentCommentId : Option Int
  creatorId : Int
  content : String
  createdAt : Int
  likes : List Int
deriving DecidableEq, Repr

/-- Composition of the final date string in `displayCommentRecursive`
(lines 364-383): pick the unit, append "s" when the value exceeds 1, and
join with " ago". -/
def ageText (time : Int) (denomination : String) : String :=
  toString time ++ " " ++ (if time > 1 then denomination ++ "s" else denomination) ++ " ago"

/-- The relative-age string computed at the top of
`displayCommentRecursive` (lines 350-384) from
`difference = dateObjectNow - dateObject`.  `Math.floor` of the JS
divisions is `Int.fdiv`. -/
def commentAgeString (difference : Int) : String :=
  let minutes := Int.fdiv difference 60000
  let hours := Int.fdiv difference 3600000
  let days := Int.fdiv difference 86400000
  let weeks := Int.fdiv difference 604800000
  if minutes < 1 then "Just now"
  else if minutes < 60 then ageText minutes "minute"
  else if hours < 24 then ageText hours "hour"
  else if days < 7 then ageText days "day"
  else ageText weeks "week"

/-- Modelled from the spec wording of the formatting rule (spec section 4.2):
thresholds are phrased directly on the time difference — under 1 minute,
under 60 minutes, under 24 hours, under 7 days — and the displayed value is
the floored count of the chosen unit.  Compared against `commentAgeString`,
which is translated from the code. -/
def specAgeString (difference : Int) : String :=
  if difference < 60000 then "Just now"
  else if difference < 3600000 then ageText (Int.fdiv difference 60000) "minute"
  else if difference < 86400000 then ageText (Int.fdiv difference 3600000) "hour"
  else if difference < 604800000 then ageText (Int.fdiv difference 86400000) "day"
  else ageText (Int.fdiv difference 604800000) "week"

/-- A rendered comment box (`div.thread-comment-box`) as built by
`displayCommentDOM` (lines 201-286): the data attributes, the pieces of
text content the code later reads back, and the inline styles.
`display`/`dataHidden` model `style.display` and the `data-hidden`
attribute used while a comment is being edited (initially unset). -/
structure RNode where
  commentId : Int
  parentAttr : Option Int
  creatorId : Int
  likesCount : Nat
  userLiked : Bool
  dateString : String
  content : String
  marginLeft : Nat
  display : Option String
  dataHidden : Bool
deriving DecidableEq, Repr

/-- The singleton reply/edit slot `#reply-box` with the state set by
`displayCommentReply` (lines 139-163): `data-editing`, `data-comment-id`
(`none` models the string "null"), `data-parent-comment-id`, the textarea
value and the inline `paddingLeft`. -/
structure ReplyState where
  editing : Bool
  dataCommentId : Option Int
  dataParentCommentId : Option Int
  value : String
  paddingLeft : Nat
deriving DecidableEq, Repr

/-- A child of the `UI.threadComments` container in document order. -/
inductive Elem where
  | commentBox (r : RNode)
  | replyBox (s : ReplyState)
deriving DecidableEq, Repr

/-- `parseInt(elem.style.marginLeft.slice(0, -2), 10)`: a comment box
always carries the inline margin set by `displayCommentDOM`; the reply slot
has no inline `marginLeft` (it is indented via `paddingLeft`), so the parse
yields `NaN`, modelled as `none`. -/
def elemMarginLeft : Elem → Option Nat
  | .commentBox r => some r.marginLeft
  | .replyBox _ => none

/-- `parseInt(elem.getAttribute('data-comment-id'), 10)`: the id stored on
a comment box parses back to the comment id; on the reply slot the
attribute holds either a number or the string "null" (parsing to `NaN`,
modelled as `none`). -/
def elemDataCommentId : Elem → Option Int
  | .commentBox r => some r.commentId
  | .replyBox s => s.dataCommentId

/-- Whether the element has class `thread-comment-box`. -/
def isCommentBoxB : Elem → Bool
  | .commentBox _ => true
  | .replyBox _ => false

/-- Whether the element is the reply slot. -/
def isReplyBoxB : Elem → Bool
  | .commentBox _ => false
  | .replyBox _ => true

/-- The scan condition used by `displayCommentReply` (lines 150-157 and
169-178): the child has class `thread-comment-box` and its
`data-comment-id` attribute equals `String(cid)`. -/
def isBoxWithId (cid : Int) : Elem → Bool
  | .commentBox r => r.commentId == cid
  | .replyBox _ => false

/-- The `for` loops of `displayCommentReply` scan all children and keep the
last match. -/
def lastBoxWithId (dom : List Elem) (cid : Int) : Option RNode :=
  dom.foldl
    (fun acc e =>
      match e with
      | .commentBox r => if r.commentId == cid then some r else acc
      | .replyBox _ => acc)
    none

/-- Insert `slot` immediately after the last child matching
`isBoxWithId cid` (`insertBefore(slot, commentBefore.nextSibling)`, or
`appendChild` when that child is last).  `none` models the TypeError the JS
throws when no child matches (`commentBefore` stays `undefined`). -/
def insertAfterLastBox : List Elem → Int → Elem → Option (List Elem)
  | [], _, _ => none
  | e :: rest, cid, slot =>
    if isBoxWithId cid e && !(rest.any (isBoxWithId cid)) then
      some (e :: slot :: rest)
    else
      match insertAfterLastBox rest cid slot with
      | some r => some (e :: r)
      | none => none

/-- `displayCommentReply(parentCommentId, commentBeforeId, content, editing)`
(lines 139-187).  It mutates the singleton slot's attributes and text, sets
its `paddingLeft` from the last rendered box whose id is `parentCommentId`
(plus one 10px unit), and relocates it: prepended when `commentBeforeId` is
null, otherwise immediately after the last box whose id is
`commentBeforeId`.  Relocating the singleton is modelled by removing any
existing slot from the container and inserting the updated one; the result
is the new container child list.  `none` models the TypeError raised when
a non-null id matches no rendered box. -/
def displayCommentReply (dom : List Elem) (parentCommentId commentBeforeId : Option Int)
    (content : String) (editing : Bool) : Option (List Elem) :=
  let padding? : Option Nat :=
    match parentCommentId with
    | none => some 0
    | some pid => (lastBoxWithId dom pid).map (fun r => r.marginLeft + 10)
  match padding? with
  | none => none
  | some pad =>
    let slot : Elem := .replyBox
      { editing := editing, dataCommentId := commentBeforeId,
        dataParentCommentId := parentCommentId, value := content, paddingLeft := pad }
    let base := dom.filter (fun e => !(isReplyBoxB e))
    match commentBeforeId with
    | none => some (slot :: base)
    | some cb => insertAfterLastBox base cb slot

/-- The comment box appended by `displayCommentDOM` for one record
(lines 201-271), together with the data computed for it inside
`displayCommentRecursive` (lines 349-394): like count, like/unlike label,
relative-age string, content, and `marginLeft = indentLevel * 10`. -/
def mkNode (now uid : Int) (c : Comment) (indentLevel : Nat) (parentCommentId : Option Int) :
    RNode :=
  { commentId := c.id
    parentAttr := parentCommentId
    creatorId := c.creatorId
    likesCount := c.likes.length
    userLiked := c.likes.contains uid
    dateString := commentAgeString (now - c.createdAt)
    content := c.content
    marginLeft := indentLevel * 10
    display := none
    dataHidden := false }

/-- `displayCommentRecursive(indentLevel, comments, index, parentCommentId)`
(lines 349-404): append the record's box, then scan the whole list in order
and recurse, with `indentLevel + 1`, on every record whose
`parentCommentId` equals this record's id.  The JS passes the list index
and immediately re-reads `comments[index]`; the embedding passes the record
itself.  `fuel` bounds the recursion depth (the JS has no bound and
diverges on cyclic parent chains). -/
def renderRec (now uid : Int) (comments : List Comment) :
    Nat → Nat → Comment → Option Int → List Elem
  | 0, _, _, _ => []
  | fuel + 1, indentLevel, c, parentCommentId =>
    Elem.commentBox (mkNode now uid c indentLevel parentCommentId) ::
      comments.flatMap (fun cj =>
        if cj.parentCommentId = some c.id then
          renderRec now uid comments fuel (indentLevel + 1) cj (some c.id)
        else [])

/-- The comparator passed to `comments.sort` (lines 424-430) orders `a`
before `b` when `dateB - dateA ≤ 0`, i.e. most recent first. -/
def createdGE (a b : Comment) : Prop := b.createdAt ≤ a.createdAt

instance : DecidableRel createdGE := fun a b =>
  inferInstanceAs (Decidable (b.createdAt ≤ a.createdAt))

instance : IsTotal Comment createdGE :=
  ⟨fun a b => (le_total b.createdAt a.createdAt).imp (fun h => h) (fun h => h)⟩

instance : IsTrans Comment createdGE :=
  ⟨fun _ _ _ hab hbc => le_trans hbc hab⟩

/-- `comments.sort((a, b) => dateB - dateA)`: ECMAScript `Array.sort` is
stable, so it is the stable descending-`createdAt` sort, embedded as a
stable insertion sort. -/
def sortComments (comments : List Comment) : List Comment :=
  List.insertionSort createdGE comments

/-- The `while (UI.threadComments.firstChild) removeChild` loop at the top
of `displayComments` (lines 416-418). -/
def clearChildren (_dom : List Elem) : List Elem := []

/-- The container contents and `UI.threadMainReply.style.display` produced
by one pass of `displayComments` (lines 415-453) over an already-fetched
list, for a fixed current time `now`, current user `uid` and thread lock
state: clear the container, sort by recency, render every root recursively,
then apply the empty-list UI rule.  The render fuel `length + 2` exceeds
the nesting depth of any acyclic list, so on forests this is exactly the JS
result (the JS diverges on cyclic inputs). -/
def displayComments (prevDom : List Elem) (locked : Bool) (now uid : Int)
    (comments : List Comment) : List Elem × String :=
  let cleared := clearChildren prevDom
  let sorted := sortComments comments
  let dom := cleared ++ sorted.flatMap (fun c =>
    if c.parentCommentId = none then
      renderRec now uid sorted (sorted.length + 2) 0 c none
    else [])
  if comments.length == 0 && !locked then
    ((displayCommentReply dom none none "" false).getD dom, "none")
  else if comments.length == 0 && locked then
    (dom, "none")
  else
    (dom, "inline-block")

/-- Look a comment record up by id in the flat list (first match). -/
def findById : List Comment → Int → Option Comment
  | [], _ => none
  | c :: rest, cid => if c.id = cid then some c else findById rest cid

/-- Number of `parentCommentId` hops from a given parent link down to a
null parent, bounded by `fuel`; `none` when a hop dangles or the fuel runs
out (cyclic chain). -/
def depthAux (comments : List Comment) : Nat → Option Int → Option Nat
  | _, none => some 0
  | 0, some _ => none
  | fuel + 1, some pid =>
    match findById comments pid with
    | none => none
    | some p => (depthAux comments fuel p.parentCommentId).map (· + 1)

/-- The depth of a record along its `parentCommentId` chain: 0 for a root,
parent's depth plus 1 for a child.  Fuel `length` suffices for every
terminating chain, since a terminating chain never repeats a record. -/
def depth (comments : List Comment) (c : Comment) : Option Nat :=
  depthAux comments comments.length c.parentCommentId

/-- The flat list forms a forest: ids are distinct, and every record's
`parentCommentId` chain resolves down to a null parent without cycles. -/
def IsForest (comments : List Comment) : Prop :=
  (comments.map (·.id)).Nodup ∧ ∀ c ∈ comments, (depth comments c).isSome

instance (comments : List Comment) : Decidable (IsForest comments) :=
  inferInstanceAs (Decidable (_ ∧ _))

/-- The parent record of a record, via `findById`. -/
def parentRec (comments : List Comment) (c : Comment) : Option Comment :=
  match c.parentCommentId with
  | none => none
  | some pid => findById comments pid

/-- The k-th ancestor of a record along the `parentCommentId` chain. -/
def anc (comments : List Comment) : Nat → Comment → Option Comment
  | 0, c => some c
  | k + 1, c => (anc comments k c).bind (parentRec comments)

/-- The `while (comment.nextElementSibling)` walk of
`deleteChildrenComments` (lines 301-318) over the siblings following the
target: while the target's parsed indent is strictly below the sibling's
parsed indent, the sibling is removed and a DELETE for its
`data-comment-id` is issued; the walk breaks at the first sibling for which
the comparison fails (including a `NaN` parse on either side).  Returns the
siblings kept and the issued DELETE ids in order. -/
def deleteWalk (targetIndent : Option Nat) : List Elem → List Elem × List (Option Int)
  | [] => ([], [])
  | e :: rest =>
    match targetIndent, elemMarginLeft e with
    | some ti, some m =>
      if ti < m then
        let w := deleteWalk targetIndent rest
        (w.1, elemDataCommentId e :: w.2)
      else (e :: rest, [])
    | _, _ => (e :: rest, [])

/-- Outcome of `deleteChildrenComments`: the container children, the value
of `UI.threadMainReply.style.display`, and the ids sent as
`DELETE comment` bodies, in issue order. -/
structure DeleteOutcome where
  dom : List Elem
  mainReplyDisplay : String
  deletes : List (Option Int)
deriving DecidableEq, Repr

/-- `deleteChildrenComments(comment)` (lines 298-339) on a container
`pre ++ target :: post` with thread lock state `locked`
(`data-is-locked`): walk and delete the visually nested descendants, then
remove and delete the target itself, then apply the empty-list UI rule
(lines 331-338), which shows the reply slot in compose-new state when the
container emptied on an unlocked thread. -/
def deleteChildrenComments (locked : Bool) (pre : List Elem) (target : Elem)
    (post : List Elem) : DeleteOutcome :=
  let w := deleteWalk (elemMarginLeft target) post
  let deletes := w.2 ++ [elemDataCommentId target]
  let dom1 := pre ++ w.1
  if dom1.length == 0 && !locked then
    { dom := (displayCommentReply dom1 none none "" false).getD dom1
      mainReplyDisplay := "none", deletes := deletes }
  else if dom1.length == 0 && locked then
    { dom := dom1, mainReplyDisplay := "none", deletes := deletes }
  else
    { dom := dom1, mainReplyDisplay := "inline-block", deletes := deletes }

/-- `unhideComments` (lines 90-98): every comment box whose `data-hidden`
attribute is "true" gets `style.display = "block"`. -/
def unhideComments (dom : List Elem) : List Elem :=
  dom.map (fun e =>
    match e with
    | .commentBox r => if r.dataHidden then .commentBox { r with display := some "block" } else e
    | .replyBox s => .replyBox s)

/-- The edit branch's `comment.style.display = 'none';
comment.setAttribute('data-hidden', 'true')` (lines 1454-1455), applied to
the box carrying the given id. -/
def hideBox (dom : List Elem) (cid : Int) : List Elem :=
  dom.map (fun e =>
    match e with
    | .commentBox r =>
      if r.commentId == cid then
        .commentBox { r with display := some "none", dataHidden := true }
      else e
    | .replyBox s => .replyBox s)

/-- First comment box carrying the given id (the element
`event.target.closest('.thread-comment-box')` resolves to). -/
def firstBoxWithId (dom : List Elem) (cid : Int) : Option RNode :=
  dom.findSome? (fun e =>
    match e with
    | .commentBox r => if r.commentId == cid then some r else none
    | .replyBox _ => none)

/-- Split the container at the first comment box carrying the given id. -/
def splitAtBox : List Elem → Int → Option (List Elem × RNode × List Elem)
  | [], _ => none
  | e :: rest, cid =>
    match e with
    | .commentBox r =>
      if r.commentId == cid then some ([], r, rest)
      else (splitAtBox rest cid).map (fun t => (Elem.commentBox r :: t.1, t.2.1, t.2.2))
    | .replyBox s =>
      (splitAtBox rest cid).map (fun t => (Elem.replyBox s :: t.1, t.2.1, t.2.2))

/-- The like branch's local update (lines 1402-1430): toggle the link label
and adjust the likes counter text by one. -/
def toggleLikeBox (dom : List Elem) (cid : Int) : List Elem :=
  dom.map (fun e =>
    match e with
    | .commentBox r =>
      if r.commentId == cid then
        if r.userLiked then
          .commentBox { r with userLiked := false, likesCount := r.likesCount - 1 }
        else
          .commentBox { r with userLiked := true, likesCount := r.likesCount + 1 }
      else e
    | .replyBox s => .replyBox s)

/-- A click on one of the four action links of the comment box carrying the
given id. -/
inductive CommentClick where
  | replyLink (cid : Int)
  | likeLink (cid : Int)
  | editLink (cid : Int)
  | deleteLink (cid : Int)
deriving DecidableEq, Repr

/-- Outcome of a handled click: container children, main-reply display,
ids of issued `DELETE comment` requests, and the error popup message if
one was raised. -/
structure ClickOutcome where
  dom : List Elem
  mainReplyDisplay : String
  deletes : List (Option Int)
  errorPopup : Option String
deriving DecidableEq, Repr

/-- The `UI.threadComments` click listener (lines 1379-1465) for a click on
an action link: when `data-is-locked` is "true" every action link shows the
"thread is locked" popup and returns before touching anything; otherwise
the reply/like/edit/delete branch runs.  `none` models a JS TypeError
(no box with the clicked id — unreachable from a real click). -/
def threadCommentsClick (locked : Bool) (mainReplyDisplay : String) (dom : List Elem)
    (click : CommentClick) : Option ClickOutcome :=
  if locked then
    some { dom := dom, mainReplyDisplay := mainReplyDisplay, deletes := [],
           errorPopup := some "thread is locked" }
  else
    match click with
    | .replyLink cid =>
      let dom1 := unhideComments dom
      (displayCommentReply dom1 (some cid) (some cid) "" false).map
        (fun d => { dom := d, mainReplyDisplay := mainReplyDisplay, deletes := [],
                    errorPopup := none })
    | .likeLink cid =>
      some { dom := toggleLikeBox dom cid, mainReplyDisplay := mainReplyDisplay,
             deletes := [], errorPopup := none }
    | .editLink cid =>
      let dom1 := unhideComments dom
      match firstBoxWithId dom1 cid with
      | none => none
      | some x =>
        (displayCommentReply dom1 x.parentAttr (some cid) x.content true).map
          (fun d => { dom := hideBox d cid, mainReplyDisplay := mainReplyDisplay,
                      deletes := [], errorPopup := none })
    | .deleteLink cid =>
      match splitAtBox dom cid with
      | none => none
      | some t =>
        let o := deleteChildrenComments locked t.1 (Elem.commentBox t.2.1) t.2.2
        some { dom := o.dom, mainReplyDisplay := o.mainReplyDisplay, deletes := o.deletes,
               errorPopup := none }

/-- The `UI.threadMainReply` click listener (lines 1468-1475): refuse with
the popup when the thread is locked, otherwise unhide and open a top-level
reply. -/
def threadMainReplyClick (locked : Bool) (dom : List Elem) : Option ClickOutcome :=
  if locked then
    some { dom := dom, mainReplyDisplay := "inline-block", deletes := [],
           errorPopup := some "thread is locked" }
  else
    (displayCommentReply (unhideComments dom) none none "" false).map
      (fun d => { dom := d, mainReplyDisplay := "inline-block", deletes := [],
                  errorPopup := none })

/-- Ids of the comment boxes currently hidden (`style.display = 'none'`). -/
def hiddenBoxIds (dom : List Elem) : List Int :=
  dom.filterMap (fun e =>
    match e with
    | .commentBox r => if r.display == some "none" then some r.commentId else none
    | .replyBox _ => none)

/-- The walk condition of `deleteChildrenComments`: the sibling's parsed
indent strictly exceeds the target's parsed indent `t` (false on a `NaN`
parse). -/
def strictlyDeeper (t : Nat) (e : Elem) : Bool :=
  match elemMarginLeft e with
  | some m => t < m
  | none => false

/-- The rendered comment boxes of the container, in document order. -/
def boxesOf (dom : List Elem) : List RNode :=
  dom.filterMap (fun e =>
    match e with
    | .commentBox r => some r
    | .replyBox _ => none)

/-- Whether the element is a comment box rendered with a null
`data-parent-comment-id` (a root comment box). -/
def isRootBoxB : Elem → Bool
  | .commentBox r => r.parentAttr == none
  | .replyBox _ => false

/-- Whether the element is a comment box rendered with
`data-parent-comment-id` equal to the given id. -/
def byParentAttr (pid : Int) : Elem → Bool
  | .commentBox r => r.parentAttr == some pid
  | .replyBox _ => false

/-! ### Proof development -/

theorem commentAgeString_eq_spec (d : Int) : commentAgeString d = specAgeString d := by
  have e1 : Int.fdiv d 60000 = d / 60000 := Int.fdiv_eq_ediv d (by norm_num)
  have e2 : Int.fdiv d 3600000 = d / 3600000 := Int.fdiv_eq_ediv d (by norm_num)
  have e3 : Int.fdiv d 86400000 = d / 86400000 := Int.fdiv_eq_ediv d (by norm_num)
  have e4 : Int.fdiv d 604800000 = d / 604800000 := Int.fdiv_eq_ediv d (by norm_num)
  unfold commentAgeString specAgeString
  rw [e1, e2, e3, e4]
  by_cases h1 : d < 60000
  · rw [if_pos (by omega : d / 60000 < 1), if_pos h1]
  · rw [if_neg (by omega : ¬ d / 60000 < 1), if_neg h1]
    by_cases h2 : d < 3600000
    · rw [if_pos (by omega : d / 60000 < 60), if_pos h2]
    · rw [if_neg (by omega : ¬ d / 60000 < 60), if_neg h2]
      by_cases h3 : d < 86400000
      · rw [if_pos (by omega : d / 3600000 < 24), if_pos h3]
      · rw [if_neg (by omega : ¬ d / 3600000 < 24), if_neg h3]
        by_cases h4 : d < 604800000
        · rw [if_pos (by omega : d / 86400000 < 7), if_pos h4]
        · rw [if_neg (by omega : ¬ d / 86400000 < 7), if_neg h4]

/-- Claim C5: for every comment timestamp and fixed current time, the
rendered relative-age string is "Just now" when the difference is under one
minute, and otherwise the floored number of minutes (under 60 minutes),
hours (under 24 hours), days (under 7 days) or weeks (otherwise), with the
unit pluralised exactly when the value exceeds 1; in particular 30 seconds
renders "Just now", 5 minutes renders "5 minutes ago", 90 minutes renders
"1 hour ago" and 10 days renders "1 week ago". -/
theorem c5_relative_age_formatting :
    (∀ createdAt now : Int,
      commentAgeString (now - createdAt) = specAgeString (now - createdAt))
    ∧ commentAgeString 30000 = "Just now"
    ∧ commentAgeString 300000 = "5 minutes ago"
    ∧ commentAgeString 5400000 = "1 hour ago"
    ∧ commentAgeString 864000000 = "1 week ago"
    ∧ (∀ (now uid : Int) (c : Comment) (lvl : Nat) (p : Option Int),
        (mkNode now uid c lvl p).dateString = specAgeString (now - c.createdAt)) := by
  refine ⟨fun createdAt now => commentAgeString_eq_spec _, by decide, by decide, by decide,
    by decide, fun now uid c lvl p => ?_⟩
  show commentAgeString (now - c.createdAt) = _
  exact commentAgeString_eq_spec _

/-- Claim C8: one render pass of `displayComments` is deterministic over
the fetched list, the lock state and the fixed current time: after the full
clear of the container, the produced child list and main-reply display do
not depend on what the container previously held, so rendering the same
flat list twice yields an identical DOM structure both times. -/
theorem c8_render_deterministic :
    ∀ (prev1 prev2 : List Elem) (locked : Bool) (now uid : Int) (comments : List Comment),
      displayComments prev1 locked now uid comments
        = displayComments prev2 locked now uid comments := by
  intro prev1 prev2 locked now uid comments
  rfl

/-- Claim C9: when the hosting thread is locked, a click on the delete
affordance of any comment is refused by the lock guard at the top of the
`UI.threadComments` click listener: the "thread is locked" popup is raised,
no DOM node is removed, and no backend DELETE is issued. -/
theorem c9_locked_delete_refused :
    ∀ (mainReplyDisplay : String) (dom : List Elem) (cid : Int),
      threadCommentsClick true mainReplyDisplay dom (.deleteLink cid)
        = some { dom := dom, mainReplyDisplay := mainReplyDisplay, deletes := [],
                 errorPopup := some "thread is locked" } := by
  intro mainReplyDisplay dom cid
  rfl

/-- Claim C10: when the reply/edit slot — whose `marginLeft` does not parse
to a number — is the immediate next sibling of a cascading-delete target,
the descendant walk stops at it immediately: only the target is removed and
deleted, and every node positioned after the slot stays in the DOM with no
DELETE issued for it. -/
theorem c10_delete_stops_at_reply_slot :
    ∀ (locked : Bool) (pre : List Elem) (x : RNode) (s : ReplyState) (post : List Elem),
      (deleteChildrenComments locked pre (Elem.commentBox x)
          (Elem.replyBox s :: post)).dom = pre ++ Elem.replyBox s :: post
      ∧ (deleteChildrenComments locked pre (Elem.commentBox x)
          (Elem.replyBox s :: post)).deletes = [some x.commentId] := by
  intro locked pre x s post
  have hlen : ((pre ++ Elem.replyBox s :: post).length == 0) = false := by
    simp [List.length_append]
  simp [deleteChildrenComments, deleteWalk, elemMarginLeft, elemDataCommentId, hlen]

/-- Claim C7: after a cascading delete completes, if the comment container
is now empty and the thread is unlocked, the reply slot is shown in its
compose-new state (empty text, null parent, not editing, indent 0) and the
main reply button is hidden; if the container is empty and the thread is
locked, every reply affordance is hidden; otherwise the main reply
affordance is shown. -/
theorem c7_post_delete_ui_rule :
    ∀ (locked : Bool) (pre : List Elem) (x : RNode) (post : List Elem),
      (deleteChildrenComments locked pre (Elem.commentBox x) post).mainReplyDisplay
        = (if (pre ++ (deleteWalk (some x.marginLeft) post).1).length = 0 then "none"
           else "inline-block")
      ∧ (deleteChildrenComments locked pre (Elem.commentBox x) post).dom
        = (if (pre ++ (deleteWalk (some x.marginLeft) post).1).length = 0 ∧ locked = false
           then [Elem.replyBox { editing := false, dataCommentId := none,
                                 dataParentCommentId := none, value := "", paddingLeft := 0 }]
           else pre ++ (deleteWalk (some x.marginLeft) post).1) := by
  intro locked pre x post
  by_cases h : (pre ++ (deleteWalk (some x.marginLeft) post).1).length = 0
  · have hnil : pre ++ (deleteWalk (some x.marginLeft) post).1 = [] :=
      List.length_eq_zero.mp h
    cases locked
    · simp [deleteChildrenComments, elemMarginLeft, h, hnil, displayCommentReply]
    · simp [deleteChildrenComments, elemMarginLeft, h, hnil]
  · have hne : ¬(pre = [] ∧ (deleteWalk (some x.marginLeft) post).1 = []) := by
      rintro ⟨h1, h2⟩
      exact h (by simp [h1, h2])
    simp [deleteChildrenComments, elemMarginLeft, hne]

theorem deleteWalk_eq_take_drop (t : Nat) (post : List Elem) :
    deleteWalk (some t) post
      = (post.dropWhile (strictlyDeeper t),
         (post.takeWhile (strictlyDeeper t)).map elemDataCommentId) := by
  induction post with
  | nil => rfl
  | cons e rest ih =>
    cases he : elemMarginLeft e with
    | none =>
      have hsd : strictlyDeeper t e = false := by simp [strictlyDeeper, he]
      simp [deleteWalk, he, List.dropWhile_cons, List.takeWhile_cons, hsd]
    | some m =>
      by_cases hm : t < m
      · have hsd : strictlyDeeper t e = true := by simp [strictlyDeeper, he, hm]
        simp [deleteWalk, he, hm, List.dropWhile_cons, List.takeWhile_cons, hsd, ih]
      · have hsd : strictlyDeeper t e = false := by simp [strictlyDeeper, he, hm]
        simp [deleteWalk, he, hm, List.dropWhile_cons, List.takeWhile_cons, hsd]

theorem deleteChildrenComments_deletes (locked : Bool) (pre : List Elem) (tgt : Elem)
    (post : List Elem) :
    (deleteChildrenComments locked pre tgt post).deletes
      = (deleteWalk (elemMarginLeft tgt) post).2 ++ [elemDataCommentId tgt] := by
  simp only [deleteChildrenComments, apply_ite DeleteOutcome.deletes, ite_self]

theorem deleteChildrenComments_dom_filter (locked : Bool) (pre : List Elem) (x : RNode)
    (post : List Elem) :
    (deleteChildrenComments locked pre (Elem.commentBox x) post).dom.filter isCommentBoxB
      = (pre ++ (deleteWalk (elemMarginLeft (Elem.commentBox x)) post).1).filter
          isCommentBoxB := by
  unfold deleteChildrenComments
  by_cases h : pre ++ (deleteWalk (elemMarginLeft (Elem.commentBox x)) post).1 = []
  · cases locked <;> simp [h, displayCommentReply, isCommentBoxB]
  · have hne : ¬(pre = [] ∧ (deleteWalk (elemMarginLeft (Elem.commentBox x)) post).1 = []) := by
      rintro ⟨h1, h2⟩
      exact h (by simp [h1, h2])
    simp [hne]

/-- Claim C1: on a rendered comment list, cascading delete on a target at
indent level `L` removes exactly the target together with the maximal
contiguous run of immediately-following siblings whose indent level is
strictly greater than `L`, issues one backend DELETE per removed node with
the target deleted last, and removes nothing at or beyond the first
following sibling at indent level at most `L`. -/
theorem c1_cascading_delete :
    ∀ (locked : Bool) (pre post : List Elem) (x : RNode) (L : Nat),
      x.marginLeft = L * 10 →
      (∀ e ∈ post, ∃ (r : RNode) (lv : Nat), e = Elem.commentBox r ∧ r.marginLeft = lv * 10) →
      (deleteChildrenComments locked pre (Elem.commentBox x) post).deletes
          = (post.takeWhile (strictlyDeeper (L * 10))).map elemDataCommentId
            ++ [some x.commentId]
      ∧ (deleteChildrenComments locked pre (Elem.commentBox x) post).dom.filter isCommentBoxB
          = (pre ++ post.dropWhile (strictlyDeeper (L * 10))).filter isCommentBoxB
      ∧ (∀ e ∈ post.takeWhile (strictlyDeeper (L * 10)),
          ∃ (r : RNode) (lv : Nat), e = Elem.commentBox r ∧ r.marginLeft = lv * 10 ∧ L < lv)
      ∧ (∀ (r : RNode) (lv : Nat),
          (post.dropWhile (strictlyDeeper (L * 10))).head? = some (Elem.commentBox r) →
          r.marginLeft = lv * 10 → lv ≤ L) := by
  intro locked pre post x L hx hpost
  have hmargin : elemMarginLeft (Elem.commentBox x) = some (L * 10) := by
    simp [elemMarginLeft, hx]
  refine ⟨?_, ?_, ?_, ?_⟩
  · rw [deleteChildrenComments_deletes, hmargin, deleteWalk_eq_take_drop]
    rfl
  · rw [deleteChildrenComments_dom_filter, hmargin, deleteWalk_eq_take_drop]
  · intro e he
    have hmem : e ∈ post := (List.takeWhile_sublist _).mem he
    obtain ⟨r, lv, rfl, hrm⟩ := hpost e hmem
    have htrue := List.mem_takeWhile_imp he
    have : L * 10 < r.marginLeft := by
      simpa [strictlyDeeper, elemMarginLeft] using htrue
    exact ⟨r, lv, rfl, hrm, by omega⟩
  · intro r lv hhead hrm
    have hnot := List.head?_dropWhile_not (strictlyDeeper (L * 10)) post
    rw [hhead] at hnot
    have : ¬ L * 10 < r.marginLeft := by
      simpa [strictlyDeeper, elemMarginLeft] using hnot
    omega

theorem lastBoxWithId_foldl_no_match (cid : Int) :
    ∀ (l : List Elem) (acc : Option RNode), (∀ e ∈ l, isBoxWithId cid e = false) →
      l.foldl
        (fun acc e =>
          match e with
          | .commentBox r => if r.commentId == cid then some r else acc
          | .replyBox _ => acc) acc = acc := by
  intro l
  induction l with
  | nil => intro acc _; rfl
  | cons e rest ih =>
    intro acc h
    have he : isBoxWithId cid e = false := h e (List.mem_cons_self e rest)
    have hrest : ∀ e ∈ rest, isBoxWithId cid e = false :=
      fun e' he' => h e' (List.mem_cons_of_mem _ he')
    cases e with
    | commentBox r =>
      have : (r.commentId == cid) = false := by simpa [isBoxWithId] using he
      simp only [List.foldl_cons, this, Bool.false_eq_true, if_false]
      exact ih acc hrest
    | replyBox s =>
      simp only [List.foldl_cons]
      exact ih acc hrest

theorem lastBoxWithId_split (pre post : List Elem) (x : RNode)
    (h : ∀ e ∈ pre ++ post, isBoxWithId x.commentId e = false) :
    lastBoxWithId (pre ++ Elem.commentBox x :: post) x.commentId = some x := by
  have hpost : ∀ e ∈ post, isBoxWithId x.commentId e = false :=
    fun e he => h e (List.mem_append_right _ he)
  unfold lastBoxWithId
  rw [List.foldl_append, List.foldl_cons]
  simp only [beq_self_eq_true, if_true]
  exact lastBoxWithId_foldl_no_match x.commentId post (some x) hpost

theorem insertAfterLastBox_split (pre post : List Elem) (x : RNode) (slot : Elem)
    (h : ∀ e ∈ pre ++ post, isBoxWithId x.commentId e = false) :
    insertAfterLastBox (pre ++ Elem.commentBox x :: post) x.commentId slot
      = some (pre ++ Elem.commentBox x :: slot :: post) := by
  induction pre with
  | nil =>
    have hpost : ∀ e ∈ post, isBoxWithId x.commentId e = false :=
      fun e he => h e (by simpa using he)
    have hany : post.any (isBoxWithId x.commentId) = false := by
      simp only [List.any_eq_false]
      intro e he
      simp [hpost e he]
    simp [insertAfterLastBox, isBoxWithId, hany]
  | cons e pre' ih =>
    have he : isBoxWithId x.commentId e = false := h e (by simp)
    have h' : ∀ e' ∈ pre' ++ post, isBoxWithId x.commentId e' = false := by
      intro e' he'
      exact h e' (by
        rcases List.mem_append.mp he' with h1 | h1
        · exact List.mem_append_left _ (List.mem_cons_of_mem _ h1)
        · exact List.mem_append_right _ h1)
    simp only [List.cons_append, insertAfterLastBox, he, Bool.false_and, Bool.false_eq_true,
      if_false, List.append_eq]
    rw [ih h']

/-- Claim C4: opening a reply to a rendered comment `x` at indent level `L`
relocates the singleton reply slot to be the immediate next sibling of `x`
in document order, with visual indent `L + 1` (one 10px unit more than
`x`); opening a top-level reply places the slot as the first element of the
comment list at indent 0. -/
theorem c4_reply_slot_position :
    ∀ (pre post : List Elem) (x : RNode) (L : Nat) (content : String) (editing : Bool),
      x.marginLeft = L * 10 →
      (∀ e ∈ pre ++ post, isBoxWithId x.commentId e = false) →
      displayCommentReply (pre ++ Elem.commentBox x :: post) (some x.commentId)
          (some x.commentId) content editing
        = some (pre.filter (fun e => !(isReplyBoxB e)) ++ Elem.commentBox x ::
            Elem.replyBox ⟨editing, some x.commentId, some x.commentId, content,
              (L + 1) * 10⟩ ::
            post.filter (fun e => !(isReplyBoxB e)))
      ∧ displayCommentReply (pre ++ Elem.commentBox x :: post) none none content editing
        = some (Elem.replyBox ⟨editing, none, none, content, 0⟩ ::
            (pre ++ Elem.commentBox x :: post).filter (fun e => !(isReplyBoxB e))) := by
  intro pre post x L content editing hx h
  constructor
  · have hlast := lastBoxWithId_split pre post x h
    have hbase : (pre ++ Elem.commentBox x :: post).filter (fun e => !(isReplyBoxB e))
        = pre.filter (fun e => !(isReplyBoxB e)) ++ Elem.commentBox x ::
            post.filter (fun e => !(isReplyBoxB e)) := by
      rw [List.filter_append, List.filter_cons]
      simp [isReplyBoxB]
    have hfiltered : ∀ e ∈ pre.filter (fun e => !(isReplyBoxB e))
        ++ post.filter (fun e => !(isReplyBoxB e)), isBoxWithId x.commentId e = false := by
      intro e he
      rcases List.mem_append.mp he with h1 | h1
      · exact h e (List.mem_append_left _ (List.mem_of_mem_filter h1))
      · exact h e (List.mem_append_right _ (List.mem_of_mem_filter h1))
    have hpad : x.marginLeft + 10 = (L + 1) * 10 := by omega
    simp only [displayCommentReply, hlast, Option.map_some', hpad, hbase]
    exact insertAfterLastBox_split _ _ x _ hfiltered
  · simp only [displayCommentReply]

theorem mem_boxesOf (dom : List Elem) (r : RNode) :
    r ∈ boxesOf dom ↔ Elem.commentBox r ∈ dom := by
  unfold boxesOf
  rw [List.mem_filterMap]
  constructor
  · rintro ⟨e, he, hm⟩
    cases e with
    | commentBox r' =>
      simp only [Option.some.injEq] at hm
      rwa [hm] at he
    | replyBox s => simp at hm
  · intro h
    exact ⟨Elem.commentBox r, h, rfl⟩

theorem boxesOf_filter_not_reply (dom : List Elem) :
    boxesOf (dom.filter (fun e => !(isReplyBoxB e))) = boxesOf dom := by
  induction dom with
  | nil => rfl
  | cons e rest ih =>
    cases e with
    | commentBox r => simp [boxesOf, List.filter_cons, isReplyBoxB] at ih ⊢; exact ih
    | replyBox s => simp [boxesOf, List.filter_cons, isReplyBoxB] at ih ⊢; exact ih

theorem boxesOf_insertAfterLastBox (s : ReplyState) :
    ∀ (l : List Elem) (cid : Int) (d : List Elem),
      insertAfterLastBox l cid (Elem.replyBox s) = some d → boxesOf d = boxesOf l := by
  intro l
  induction l with
  | nil => intro cid d h; simp [insertAfterLastBox] at h
  | cons e rest ih =>
    intro cid d h
    rw [insertAfterLastBox] at h
    by_cases hc : (isBoxWithId cid e && !rest.any (isBoxWithId cid)) = true
    · rw [if_pos hc] at h
      cases h
      cases e with
      | commentBox r => simp [boxesOf]
      | replyBox s' => simp [isBoxWithId] at hc
    · rw [if_neg hc] at h
      cases hrec : insertAfterLastBox rest cid (Elem.replyBox s) with
      | none => rw [hrec] at h; cases h
      | some d' =>
        rw [hrec] at h
        cases h
        have h2 := ih cid d' hrec
        cases e with
        | commentBox r =>
          unfold boxesOf at h2 ⊢
          simp [List.filterMap_cons, h2]
        | replyBox s' =>
          unfold boxesOf at h2 ⊢
          simp [List.filterMap_cons, h2]

theorem boxesOf_cons_reply (s : ReplyState) (l : List Elem) :
    boxesOf (Elem.replyBox s :: l) = boxesOf l := by
  unfold boxesOf
  simp [List.filterMap_cons]

theorem boxesOf_displayCommentReply (dom : List Elem) (p cb : Option Int)
    (content : String) (editing : Bool) (d : List Elem)
    (h : displayCommentReply dom p cb content editing = some d) :
    boxesOf d = boxesOf dom := by
  cases p with
  | none =>
    cases cb with
    | none =>
      simp only [displayCommentReply, Option.some.injEq] at h
      rw [← h, boxesOf_cons_reply, boxesOf_filter_not_reply]
    | some b =>
      simp only [displayCommentReply] at h
      exact (boxesOf_insertAfterLastBox _ _ _ _ h).trans (boxesOf_filter_not_reply dom)
  | some pid =>
    cases hl : lastBoxWithId dom pid with
    | none =>
      simp only [displayCommentReply, hl, Option.map_none'] at h
      cases h
    | some r0 =>
      simp only [displayCommentReply, hl, Option.map_some'] at h
      cases cb with
      | none =>
        simp only [Option.some.injEq] at h
        rw [← h, boxesOf_cons_reply, boxesOf_filter_not_reply]
      | some b =>
        exact (boxesOf_insertAfterLastBox _ _ _ _ h).trans (boxesOf_filter_not_reply dom)

theorem boxesOf_unhideComments (dom : List Elem) :
    boxesOf (unhideComments dom)
      = (boxesOf dom).map
          (fun r => if r.dataHidden then { r with display := some "block" } else r) := by
  induction dom with
  | nil => rfl
  | cons e rest ih =>
    cases e with
    | commentBox r =>
      by_cases hd : r.dataHidden
      · simp only [unhideComments, List.map_cons, hd, if_true] at ih ⊢
        unfold boxesOf at ih ⊢
        simp only [List.filterMap_cons, List.map_cons]
        rw [← unhideComments] at ih ⊢
        simp [hd, ih]
      · simp only [unhideComments, List.map_cons, hd, if_false] at ih ⊢
        unfold boxesOf at ih ⊢
        simp only [List.filterMap_cons, List.map_cons]
        rw [← unhideComments] at ih ⊢
        simp [hd, ih]
    | replyBox s =>
      simp only [unhideComments, List.map_cons] at ih ⊢
      unfold boxesOf at ih ⊢
      simp only [List.filterMap_cons]
      rw [← unhideComments] at ih ⊢
      simp [ih]

theorem boxesOf_hideBox (dom : List Elem) (cid : Int) :
    boxesOf (hideBox dom cid)
      = (boxesOf dom).map
          (fun r => if r.commentId == cid
            then { r with display := some "none", dataHidden := true } else r) := by
  induction dom with
  | nil => rfl
  | cons e rest ih =>
    cases e with
    | commentBox r =>
      by_cases hd : (r.commentId == cid) = true
      · simp only [hideBox, List.map_cons, hd, if_true] at ih ⊢
        unfold boxesOf at ih ⊢
        simp only [List.filterMap_cons, List.map_cons]
        rw [← hideBox] at ih ⊢
        simp [hd, ih]
      · simp only [hideBox, List.map_cons, hd, if_false] at ih ⊢
        unfold boxesOf at ih ⊢
        simp only [List.filterMap_cons, List.map_cons]
        rw [← hideBox] at ih ⊢
        simp [hd, ih]
    | replyBox s =>
      simp only [hideBox, List.map_cons] at ih ⊢
      unfold boxesOf at ih ⊢
      simp only [List.filterMap_cons]
      rw [← hideBox] at ih ⊢
      simp [ih]

theorem hiddenBoxIds_eq_boxesOf (dom : List Elem) :
    hiddenBoxIds dom
      = (boxesOf dom).filterMap
          (fun r => if r.display == some "none" then some r.commentId else none) := by
  unfold hiddenBoxIds boxesOf
  rw [List.filterMap_filterMap]
  apply List.filterMap_congr
  intro e _
  cases e <;> rfl

theorem firstBoxWithId_some :
    ∀ (dom : List Elem) (cid : Int) (x : RNode),
      firstBoxWithId dom cid = some x → Elem.commentBox x ∈ dom ∧ x.commentId = cid := by
  intro dom
  induction dom with
  | nil => intro cid x h; cases h
  | cons e rest ih =>
    intro cid x h
    unfold firstBoxWithId at h
    rw [List.findSome?_cons] at h
    cases e with
    | commentBox r =>
      by_cases hc : (r.commentId == cid) = true
      · simp only [hc, if_true] at h
        cases h
        exact ⟨List.mem_cons_self _ _, by simpa using hc⟩
      · simp only [hc, if_false] at h
        obtain ⟨hm, hid⟩ := ih cid x h
        exact ⟨List.mem_cons_of_mem _ hm, hid⟩
    | replyBox s =>
      simp only at h
      obtain ⟨hm, hid⟩ := ih cid x h
      exact ⟨List.mem_cons_of_mem _ hm, hid⟩

theorem filterMap_id_eq_single :
    ∀ (l : List RNode) (cid : Int),
      (l.map (fun r => r.commentId)).Nodup →
      (∃ r0 ∈ l, r0.commentId = cid) →
      l.filterMap (fun r => if r.commentId == cid then some r.commentId else none)
        = [cid] := by
  intro l
  induction l with
  | nil =>
    rintro cid _ ⟨r0, h, _⟩
    cases h
  | cons a rest ih =>
    rintro cid hnd ⟨r0, hr0, hid⟩
    have hnd' : (rest.map (fun r => r.commentId)).Nodup := by
      simpa using hnd.of_cons
    by_cases hc : (a.commentId == cid) = true
    · have hac : a.commentId = cid := by simpa using hc
      have hne : ∀ r ∈ rest, r.commentId ≠ cid := by
        intro r hr he
        have : a.commentId ∈ rest.map (fun r => r.commentId) := by
          rw [hac, ← he]
          exact List.mem_map_of_mem _ hr
        simp only [List.map_cons, List.nodup_cons] at hnd
        exact hnd.1 this
      have hrest : rest.filterMap
          (fun r => if r.commentId == cid then some r.commentId else none) = [] := by
        apply List.filterMap_eq_nil_iff.mpr
        intro r hr
        simp [hne r hr]
      simp only [List.filterMap_cons, hc, if_true, hrest, hac]
      simp
    · have hr0' : r0 ∈ rest := by
        rcases List.mem_cons.mp hr0 with h | h
        · exfalso
          rw [h] at hid
          simp [hid] at hc
        · exact h
      simp only [List.filterMap_cons, hc, if_false]
      exact ih cid hnd' ⟨r0, hr0', hid⟩

/-- Claim C6: initiating a reply (on a comment or via the main reply
button) first restores every previously hidden comment to visible, and the
edit action restores all and then hides exactly the comment being edited,
which stays in the DOM; hence at most one rendered comment is hidden in any
state these actions produce. -/
theorem c6_at_most_one_hidden :
    ∀ (dom : List Elem) (mainReply : String) (cid : Int),
      ((boxesOf dom).map (fun r => r.commentId)).Nodup →
      (∀ r ∈ boxesOf dom, r.display = some "none" → r.dataHidden = true) →
      (∀ o, threadCommentsClick false mainReply dom (.replyLink cid) = some o →
        hiddenBoxIds o.dom = [])
      ∧ (∀ o, threadMainReplyClick false dom = some o → hiddenBoxIds o.dom = [])
      ∧ (∀ o, threadCommentsClick false mainReply dom (.editLink cid) = some o →
        hiddenBoxIds o.dom = [cid]) := by
  intro dom mainReply cid hnd hinv
  have hnohide : ∀ d : List Elem, boxesOf d = boxesOf (unhideComments dom) →
      hiddenBoxIds d = [] := by
    intro d hbd
    rw [hiddenBoxIds_eq_boxesOf, hbd, boxesOf_unhideComments, List.filterMap_map]
    apply List.filterMap_eq_nil_iff.mpr
    intro r hr
    by_cases hd : r.dataHidden
    · simp [Function.comp, hd]
    · have hdisp : ¬ r.display = some "none" := fun hno => hd (hinv r hr hno)
      simp [Function.comp, hd, hdisp]
  refine ⟨?_, ?_, ?_⟩
  · intro o ho
    simp only [threadCommentsClick, Bool.false_eq_true, if_false] at ho
    rw [Option.map_eq_some'] at ho
    obtain ⟨d, hd, rfl⟩ := ho
    exact hnohide d (boxesOf_displayCommentReply _ _ _ _ _ _ hd)
  · intro o ho
    simp only [threadMainReplyClick, Bool.false_eq_true, if_false] at ho
    rw [Option.map_eq_some'] at ho
    obtain ⟨d, hd, rfl⟩ := ho
    exact hnohide d (boxesOf_displayCommentReply _ _ _ _ _ _ hd)
  · intro o ho
    simp only [threadCommentsClick, Bool.false_eq_true, if_false] at ho
    cases hfb : firstBoxWithId (unhideComments dom) cid with
    | none =>
      rw [hfb] at ho
      cases ho
    | some x =>
      rw [hfb] at ho
      rw [Option.map_eq_some'] at ho
      obtain ⟨d, hd, rfl⟩ := ho
      have hboxd : boxesOf d = boxesOf (unhideComments dom) :=
        boxesOf_displayCommentReply _ _ _ _ _ _ hd
      obtain ⟨hmem, hxid⟩ := firstBoxWithId_some _ _ _ hfb
      have hx' : x ∈ boxesOf (unhideComments dom) := (mem_boxesOf _ _).mpr hmem
      rw [boxesOf_unhideComments] at hx'
      obtain ⟨r0, hr0, hr0x⟩ := List.mem_map.mp hx'
      have hr0id : r0.commentId = cid := by
        have hcomm : (if r0.dataHidden then
            { r0 with display := some "block" } else r0).commentId = r0.commentId := by
          by_cases h : r0.dataHidden <;> simp [h]
        rw [← hxid, ← hr0x, hcomm]
      show hiddenBoxIds (hideBox d cid) = [cid]
      rw [hiddenBoxIds_eq_boxesOf, boxesOf_hideBox, hboxd, boxesOf_unhideComments,
        List.filterMap_map, List.filterMap_map]
      refine Eq.trans (List.filterMap_congr ?_)
        (filterMap_id_eq_single (boxesOf dom) cid hnd ⟨r0, hr0, hr0id⟩)
      intro r hr
      by_cases hc : (r.commentId == cid) = true
      · by_cases hdh : r.dataHidden <;> simp [Function.comp, hdh, hc]
      · by_cases hdh : r.dataHidden
        · simp [Function.comp, hdh, hc]
        · have hdisp : ¬ r.display = some "none" := fun hno => by
            simp [hinv r hr hno] at hdh
          simp [Function.comp, hdh, hc, hdisp]

theorem depthAux_none (L : List Comment) (fuel : Nat) :
    depthAux L fuel none = some 0 := by
  cases fuel <;> rfl

theorem depthAux_zero_some (L : List Comment) (pid : Int) :
    depthAux L 0 (some pid) = none := rfl

theorem depthAux_succ (L : List Comment) (fuel : Nat) (pid : Int) :
    depthAux L (fuel + 1) (some pid)
      = match findById L pid with
        | none => none
        | some p => (depthAux L fuel p.parentCommentId).map (· + 1) := rfl

theorem depthAux_mono (L : List Comment) :
    ∀ (f f' : Nat) (o : Option Int) (d : Nat), f ≤ f' →
      depthAux L f o = some d → depthAux L f' o = some d := by
  intro f
  induction f with
  | zero =>
    intro f' o d _ h
    cases o with
    | none =>
      rw [depthAux_none] at h
      rw [depthAux_none]
      exact h
    | some pid =>
      rw [depthAux_zero_some] at h
      cases h
  | succ f ih =>
    intro f' o d hle h
    cases o with
    | none =>
      rw [depthAux_none] at h
      rw [depthAux_none]
      exact h
    | some pid =>
      obtain ⟨f'', rfl⟩ : ∃ f'', f' = f'' + 1 := ⟨f' - 1, by omega⟩
      rw [depthAux_succ] at h
      rw [depthAux_succ]
      cases hf : findById L pid with
      | none =>
        rw [hf] at h
        exact absurd h (by simp)
      | some p =>
        rw [hf] at h
        simp only [Option.map_eq_some'] at h ⊢
        obtain ⟨d0, hd0, rfl⟩ := h
        exact ⟨d0, ih f'' p.parentCommentId d0 (by omega) hd0, rfl⟩

theorem depthAux_le (L : List Comment) :
    ∀ (f : Nat) (o : Option Int) (d : Nat), depthAux L f o = some d → d ≤ f := by
  intro f
  induction f with
  | zero =>
    intro o d h
    cases o with
    | none =>
      rw [depthAux_none] at h
      cases h
      exact Nat.le_refl 0
    | some pid =>
      rw [depthAux_zero_some] at h
      cases h
  | succ f ih =>
    intro o d h
    cases o with
    | none =>
      rw [depthAux_none] at h
      cases h
      exact Nat.zero_le _
    | some pid =>
      rw [depthAux_succ] at h
      cases hf : findById L pid with
      | none =>
        rw [hf] at h
        exact absurd h (by simp)
      | some p =>
        rw [hf] at h
        simp only [Option.map_eq_some'] at h
        obtain ⟨d0, hd0, rfl⟩ := h
        have := ih p.parentCommentId d0 hd0
        omega

theorem findById_self :
    ∀ (L : List Comment), (L.map (·.id)).Nodup → ∀ c ∈ L, findById L c.id = some c := by
  intro L
  induction L with
  | nil =>
    intro _ c hc
    cases hc
  | cons a rest ih =>
    intro hN c hc
    simp only [List.map_cons, List.nodup_cons] at hN
    rcases List.mem_cons.mp hc with rfl | hr
    · simp [findById]
    · by_cases ha : a.id = c.id
      · exfalso
        exact hN.1 (ha ▸ List.mem_map_of_mem _ hr)
      · simp only [findById]
        rw [if_neg ha]
        exact ih hN.2 c hr

theorem depth_child (L : List Comment) (hN : (L.map (·.id)).Nodup) (c cj : Comment)
    (hc : c ∈ L) (hpar : cj.parentCommentId = some c.id)
    (hsome : (depth L cj).isSome) (dc : Nat) (hdc : depth L c = some dc) :
    depth L cj = some (dc + 1) := by
  obtain ⟨n, hn⟩ : ∃ n, L.length = n + 1 :=
    ⟨L.length - 1, by
      have : 0 < L.length := List.length_pos.mpr (List.ne_nil_of_mem hc)
      omega⟩
  have hstep : depth L cj = (depthAux L n c.parentCommentId).map (· + 1) := by
    unfold depth
    rw [hpar, hn, depthAux_succ, findById_self L hN c hc]
  rw [hstep] at hsome
  obtain ⟨k0, hk0⟩ : ∃ k0, depthAux L n c.parentCommentId = some k0 := by
    cases hx : depthAux L n c.parentCommentId with
    | none =>
      rw [hx] at hsome
      simp at hsome
    | some k0 => exact ⟨k0, rfl⟩
  have hk' : depthAux L L.length c.parentCommentId = some k0 :=
    depthAux_mono L n L.length c.parentCommentId k0 (by omega) hk0
  unfold depth at hdc
  rw [hdc] at hk'
  have hkd : k0 = dc := Option.some.inj hk'.symm
  rw [hstep, hk0, hkd]
  rfl

theorem no_self_parent (L : List Comment) (hN : (L.map (·.id)).Nodup) (c : Comment)
    (hc : c ∈ L) (hself : c.parentCommentId = some c.id) :
    ∀ (f k : Nat), depthAux L f (some c.id) ≠ some k := by
  intro f
  induction f with
  | zero =>
    intro k h
    rw [depthAux_zero_some] at h
    cases h
  | succ f ih =>
    intro k h
    have hred : depthAux L (f + 1) (some c.id)
        = (depthAux L f c.parentCommentId).map (· + 1) := by
      rw [depthAux_succ, findById_self L hN c hc]
    rw [hred, hself] at h
    simp only [Option.map_eq_some'] at h
    obtain ⟨k0, hk0, _⟩ := h
    exact ih k0 hk0

theorem not_self_parent_of_forest (L : List Comment) (hN : (L.map (·.id)).Nodup)
    (c : Comment) (hc : c ∈ L) (hsome : (depth L c).isSome) :
    c.parentCommentId ≠ some c.id := by
  intro hself
  unfold depth at hsome
  rw [hself] at hsome
  obtain ⟨k, hk⟩ := Option.isSome_iff_exists.mp hsome
  exact no_self_parent L hN c hc hself L.length k hk

theorem parentRec_some (L : List Comment) (b a : Comment) (h : parentRec L b = some a) :
    ∃ pid, b.parentCommentId = some pid ∧ findById L pid = some a ∧ a.id = pid := by
  unfold parentRec at h
  cases hb : b.parentCommentId with
  | none =>
    rw [hb] at h
    cases h
  | some pid =>
    rw [hb] at h
    exact ⟨pid, rfl, h, by
      clear hb
      induction L with
      | nil => cases h
      | cons x rest ih =>
        simp only [findById] at h
        by_cases hx : x.id = pid
        · rw [if_pos hx] at h
          cases h
          exact hx
        · rw [if_neg hx] at h
          exact ih h⟩

theorem findById_mem (L : List Comment) (pid : Int) (a : Comment)
    (h : findById L pid = some a) : a ∈ L := by
  induction L with
  | nil => cases h
  | cons x rest ih =>
    simp only [findById] at h
    by_cases hx : x.id = pid
    · rw [if_pos hx] at h
      cases h
      exact List.mem_cons_self _ _
    · rw [if_neg hx] at h
      exact List.mem_cons_of_mem _ (ih h)

theorem anc_succ_front (L : List Comment) :
    ∀ (k : Nat) (c : Comment), anc L (k + 1) c = (parentRec L c).bind (anc L k) := by
  intro k
  induction k with
  | zero =>
    intro c
    show (anc L 0 c).bind (parentRec L) = _
    cases hp : parentRec L c <;> simp [anc, hp]
  | succ k ih =>
    intro c
    show (anc L (k + 1) c).bind (parentRec L) = _
    rw [ih c]
    cases hp : parentRec L c with
    | none => simp
    | some p =>
      simp only [Option.some_bind]
      rfl

theorem anc_mem (L : List Comment) :
    ∀ (k : Nat) (c a : Comment), c ∈ L → anc L k c = some a → a ∈ L := by
  intro k
  induction k with
  | zero =>
    intro c a hc h
    cases h
    exact hc
  | succ k ih =>
    intro c a hc h
    rw [anc] at h
    cases hb : anc L k c with
    | none =>
      rw [hb] at h
      cases h
    | some b =>
      rw [hb] at h
      obtain ⟨pid, _, hfind, _⟩ := parentRec_some L b a h
      exact findById_mem L pid a hfind

theorem anc_depth (L : List Comment) :
    ∀ (k : Nat) (c a : Comment) (dc : Nat), c ∈ L → depth L c = some dc →
      anc L k c = some a → k ≤ dc ∧ depth L a = some (dc - k) := by
  intro k
  induction k with
  | zero =>
    intro c a dc _ hdc h
    cases h
    exact ⟨Nat.zero_le _, hdc⟩
  | succ k ih =>
    intro c a dc hc hdc h
    rw [anc] at h
    cases hb : anc L k c with
    | none =>
      rw [hb] at h
      cases h
    | some b =>
      rw [hb] at h
      obtain ⟨hk, hdb⟩ := ih c b dc hc hdc hb
      obtain ⟨pid, hbp, hfind, haid⟩ := parentRec_some L b a h
      have haL : a ∈ L := findById_mem L pid a hfind
      obtain ⟨n, hn⟩ : ∃ n, L.length = n + 1 :=
        ⟨L.length - 1, by
          have : 0 < L.length := List.length_pos.mpr (List.ne_nil_of_mem hc)
          omega⟩
  -- unfold depth of b through its parent link to a
      unfold depth at hdb
      rw [hbp, hn, depthAux_succ, hfind] at hdb
      simp only [Option.map_eq_some'] at hdb
      obtain ⟨d0, hd0, hd0e⟩ := hdb
      have hda : depth L a = some d0 := by
        unfold depth
        exact depthAux_mono L n L.length a.parentCommentId d0 (by omega) hd0
      constructor
      · omega
      · rw [hda]
        congr 1
        omega

theorem depth_zero_root (L : List Comment) (c : Comment) (h : depth L c = some 0) :
    c.parentCommentId = none := by
  unfold depth at h
  cases hp : c.parentCommentId with
  | none => rfl
  | some pid =>
    exfalso
    rw [hp] at h
    cases hn : L.length with
    | zero =>
      rw [hn, depthAux_zero_some] at h
      cases h
    | succ n =>
      rw [hn, depthAux_succ] at h
      cases hf : findById L pid with
      | none =>
        rw [hf] at h
        exact absurd h (by simp)
      | some p =>
        rw [hf] at h
        simp only [Option.map_eq_some'] at h
        obtain ⟨d0, _, hd0e⟩ := h
        omega

theorem root_anc (L : List Comment) :
    ∀ (dc : Nat) (c : Comment), c ∈ L → depth L c = some dc →
      ∃ t, anc L dc c = some t ∧ t ∈ L ∧ t.parentCommentId = none := by
  intro dc
  induction dc with
  | zero =>
    intro c hc hdc
    exact ⟨c, rfl, hc, depth_zero_root L c hdc⟩
  | succ dc ih =>
    intro c hc hdc
    unfold depth at hdc
    cases hp : c.parentCommentId with
    | none =>
      rw [hp, depthAux_none] at hdc
      exact absurd hdc (by simp)
    | some pid =>
      obtain ⟨n, hn⟩ : ∃ n, L.length = n + 1 :=
        ⟨L.length - 1, by
          have : 0 < L.length := List.length_pos.mpr (List.ne_nil_of_mem hc)
          omega⟩
      rw [hp, hn, depthAux_succ] at hdc
      cases hf : findById L pid with
      | none =>
        rw [hf] at hdc
        exact absurd hdc (by simp)
      | some p =>
        rw [hf] at hdc
        simp only [Option.map_eq_some'] at hdc
        obtain ⟨d0, hd0, he⟩ := hdc
        have hpL : p ∈ L := findById_mem L pid p hf
        have hdp : depth L p = some dc := by
          unfold depth
          have : d0 = dc := by omega
          rw [← this]
          exact depthAux_mono L n L.length p.parentCommentId d0 (by omega) hd0
        obtain ⟨t, ht, htL, htr⟩ := ih p hpL hdp
        refine ⟨t, ?_, htL, htr⟩
        rw [anc_succ_front]
        have hpr : parentRec L c = some p := by
          unfold parentRec
          rw [hp]
          exact hf
        rw [hpr, Option.some_bind]
        exact ht

theorem flatMap_congr_mem {α β : Type} {l : List α} {f g : α → List β}
    (h : ∀ a ∈ l, f a = g a) : l.flatMap f = l.flatMap g := by
  induction l with
  | nil => rfl
  | cons a rest ih =>
    rw [List.flatMap_cons, List.flatMap_cons, h a (List.mem_cons_self _ _),
      ih (fun a' ha' => h a' (List.mem_cons_of_mem _ ha'))]

theorem flatMap_ite_singleton {α β : Type} (l : List α) (p : α → Prop) [DecidablePred p]
    (f : α → β) :
    (l.flatMap fun a => if p a then [f a] else [])
      = (l.filter (fun a => decide (p a))).map f := by
  induction l with
  | nil => rfl
  | cons a rest ih =>
    by_cases h : p a <;> simp [List.filter_cons, h, ih]

theorem flatMap_eq_of_unique {α β : Type} (l : List α) (f : α → List β) (b : α)
    (hnd : l.Nodup) (hb : b ∈ l) (hz : ∀ a ∈ l, a ≠ b → f a = []) :
    l.flatMap f = f b := by
  induction l with
  | nil => cases hb
  | cons a rest ih =>
    rw [List.flatMap_cons]
    rcases List.mem_cons.mp hb with rfl | hbr
    · have hrest : rest.flatMap f = [] :=
        List.flatMap_eq_nil_iff.mpr (fun x hx =>
          hz x (List.mem_cons_of_mem _ hx)
            (fun he => (List.nodup_cons.mp hnd).1 (he ▸ hx)))
      simp [hrest]
    · have ha : f a = [] :=
        hz a (List.mem_cons_self _ _)
          (fun he => (List.nodup_cons.mp hnd).1 (he ▸ hbr))
      rw [ha, List.nil_append]
      exact ih (List.nodup_cons.mp hnd).2 hbr
        (fun x hx hne => hz x (List.mem_cons_of_mem _ hx) hne)

theorem renderRec_mem_margin (now uid : Int) (S : List Comment) :
    ∀ (fuel lvl : Nat) (c : Comment) (pcid : Option Int) (e : Elem),
      e ∈ renderRec now uid S fuel lvl c pcid →
      ∃ r : RNode, e = Elem.commentBox r ∧ lvl * 10 ≤ r.marginLeft := by
  intro fuel
  induction fuel with
  | zero =>
    intro lvl c pcid e he
    simp [renderRec] at he
  | succ fuel ih =>
    intro lvl c pcid e he
    rw [renderRec] at he
    rcases List.mem_cons.mp he with rfl | hmem
    · exact ⟨_, rfl, Nat.le_refl _⟩
    · rw [List.mem_flatMap] at hmem
      obtain ⟨cj, _, hin⟩ := hmem
      by_cases hc : cj.parentCommentId = some c.id
      · rw [if_pos hc] at hin
        obtain ⟨r, rfl, hm⟩ := ih (lvl + 1) cj (some c.id) e hin
        exact ⟨r, rfl, by omega⟩
      · rw [if_neg hc] at hin
        cases hin

theorem renderRec_node_char (now uid : Int) (S : List Comment)
    (hN : (S.map (·.id)).Nodup) (hF : ∀ c ∈ S, (depth S c).isSome) :
    ∀ (fuel lvl : Nat) (c : Comment) (pcid : Option Int) (e : Elem),
      c ∈ S → depth S c = some lvl → pcid = c.parentCommentId →
      e ∈ renderRec now uid S fuel lvl c pcid →
      ∃ r ∈ S, ∃ d : Nat, depth S r = some d
        ∧ e = Elem.commentBox (mkNode now uid r d r.parentCommentId) := by
  intro fuel
  induction fuel with
  | zero =>
    intro lvl c pcid e _ _ _ he
    simp [renderRec] at he
  | succ fuel ih =>
    intro lvl c pcid e hc hdc hpc he
    rw [renderRec] at he
    rcases List.mem_cons.mp he with rfl | hmem
    · exact ⟨c, hc, lvl, hdc, by rw [hpc]⟩
    · rw [List.mem_flatMap] at hmem
      obtain ⟨cj, hcj, hin⟩ := hmem
      by_cases hp : cj.parentCommentId = some c.id
      · rw [if_pos hp] at hin
        have hdcj : depth S cj = some (lvl + 1) :=
          depth_child S hN c cj hc hp (hF cj hcj) lvl hdc
        exact ih (lvl + 1) cj (some c.id) e hcj hdcj hp.symm hin
      · rw [if_neg hp] at hin
        cases hin

theorem renderRec_filter_root_some (now uid : Int) (S : List Comment) :
    ∀ (fuel lvl : Nat) (c : Comment) (pid : Int),
      (renderRec now uid S fuel lvl c (some pid)).filter isRootBoxB = [] := by
  intro fuel
  induction fuel with
  | zero =>
    intro lvl c pid
    simp [renderRec]
  | succ fuel ih =>
    intro lvl c pid
    rw [renderRec, List.filter_cons]
    have hhead : isRootBoxB (Elem.commentBox (mkNode now uid c lvl (some pid))) = false := by
      simp [isRootBoxB, mkNode]
    rw [hhead]
    simp only [Bool.false_eq_true, if_false]
    rw [List.filter_flatMap]
    apply List.flatMap_eq_nil_iff.mpr
    intro cj _
    by_cases hp : cj.parentCommentId = some c.id
    · rw [if_pos hp]
      exact ih (lvl + 1) cj c.id
    · rw [if_neg hp]
      rfl

theorem renderRec_filter_root_none (now uid : Int) (S : List Comment)
    (fuel lvl : Nat) (c : Comment) :
    (renderRec now uid S (fuel + 1) lvl c none).filter isRootBoxB
      = [Elem.commentBox (mkNode now uid c lvl none)] := by
  rw [renderRec, List.filter_cons]
  have hhead : isRootBoxB (Elem.commentBox (mkNode now uid c lvl none)) = true := by
    simp [isRootBoxB, mkNode]
  rw [hhead]
  simp only [if_true]
  congr 1
  rw [List.filter_flatMap]
  apply List.flatMap_eq_nil_iff.mpr
  intro cj _
  by_cases hp : cj.parentCommentId = some c.id
  · rw [if_pos hp]
    exact renderRec_filter_root_some now uid S fuel (lvl + 1) cj c.id
  · rw [if_neg hp]
    rfl

theorem renderRec_filter_byParent (now uid : Int) (S : List Comment)
    (hN : (S.map (·.id)).Nodup) (hF : ∀ c ∈ S, (depth S c).isSome) (q : Comment)
    (hq : q ∈ S) (dq : Nat) (hdq : depth S q = some dq) :
    ∀ (fuel lvl : Nat) (c : Comment) (pcid : Option Int),
      c ∈ S → depth S c = some lvl → pcid = c.parentCommentId →
      dq + 2 ≤ fuel + lvl →
      (renderRec now uid S fuel lvl c pcid).filter (byParentAttr q.id)
        = (if pcid = some q.id
            then [Elem.commentBox (mkNode now uid c lvl pcid)] else [])
          ++ (if lvl ≤ dq ∧ anc S (dq - lvl) q = some c
              then (S.filter (fun cj => decide (cj.parentCommentId = some q.id))).map
                     (fun cj => Elem.commentBox (mkNode now uid cj (dq + 1) (some q.id)))
              else []) := by
  intro fuel
  induction fuel with
  | zero =>
    intro lvl c pcid hc hdc hpc hfuel
    have h1 : ¬ pcid = some q.id := by
      intro he
      have hd1 : depth S c = some (dq + 1) :=
        depth_child S hN q c hq (hpc ▸ he) (hF c hc) dq hdq
      rw [hdc] at hd1
      have := Option.some.inj hd1
      omega
    have h2 : ¬ (lvl ≤ dq ∧ anc S (dq - lvl) q = some c) := by
      rintro ⟨hle, _⟩
      omega
    rw [if_neg h1, if_neg h2]
    simp [renderRec]
  | succ fuel ih =>
    intro lvl c pcid hc hdc hpc hfuel
    rw [renderRec, List.filter_cons, List.filter_flatMap]
    by_cases hcq : c = q
    · -- the call renders q itself: its direct children are collected head-first
      subst hcq
      have hlvl : dq = lvl := by
        rw [hdq] at hdc
        exact Option.some.inj hdc
      subst hlvl
      have hpq : ¬ pcid = some c.id := by
        intro he
        exact not_self_parent_of_forest S hN c hc (hF c hc) (hpc ▸ he)
      have hhead : byParentAttr c.id (Elem.commentBox (mkNode now uid c dq pcid)) = false := by
        simp only [byParentAttr, mkNode]
        simp [hpq]
      rw [hhead]
      simp only [Bool.false_eq_true, if_false]
      rw [if_neg hpq, List.nil_append, Nat.sub_self]
      rw [if_pos ⟨Nat.le_refl dq, rfl⟩]
      have hch : ∀ cj ∈ S,
          (if cj.parentCommentId = some c.id
            then renderRec now uid S fuel (dq + 1) cj (some c.id) else []).filter
              (byParentAttr c.id)
          = if cj.parentCommentId = some c.id
            then [Elem.commentBox (mkNode now uid cj (dq + 1) (some c.id))] else [] := by
        intro cj hcj
        by_cases hp : cj.parentCommentId = some c.id
        · rw [if_pos hp, if_pos hp]
          have hdcj : depth S cj = some (dq + 1) :=
            depth_child S hN c cj hc hp (hF cj hcj) dq hdq
          rw [ih (dq + 1) cj (some c.id) hcj hdcj hp.symm (by omega)]
          rw [if_pos rfl, if_neg (by
            rintro ⟨h1, _⟩
            omega)]
          rw [List.append_nil]
        · rw [if_neg hp, if_neg hp]
          rfl
      rw [flatMap_congr_mem hch, flatMap_ite_singleton]
    · -- the call renders a record other than q
      have hidne : c.id ≠ q.id := fun he => hcq (List.inj_on_of_nodup_map hN hc hq he)
      have hch0 : ∀ cj ∈ S,
          (if cj.parentCommentId = some c.id
            then renderRec now uid S fuel (lvl + 1) cj (some c.id) else []).filter
              (byParentAttr q.id)
          = if cj.parentCommentId = some c.id
            then (if lvl + 1 ≤ dq ∧ anc S (dq - (lvl + 1)) q = some cj
              then (S.filter (fun x => decide (x.parentCommentId = some q.id))).map
                     (fun x => Elem.commentBox (mkNode now uid x (dq + 1) (some q.id)))
              else [])
            else [] := by
        intro cj hcj
        by_cases hp : cj.parentCommentId = some c.id
        · rw [if_pos hp, if_pos hp]
          have hdcj : depth S cj = some (lvl + 1) :=
            depth_child S hN c cj hc hp (hF cj hcj) lvl hdc
          rw [ih (lvl + 1) cj (some c.id) hcj hdcj hp.symm (by omega)]
          rw [if_neg (by
            intro he
            exact hidne (Option.some.inj he)), List.nil_append]
        · rw [if_neg hp, if_neg hp]
          rfl
      rw [flatMap_congr_mem hch0]
      -- the head of this subtree is collected exactly when c is a direct child of q
      have hheadval : byParentAttr q.id (Elem.commentBox (mkNode now uid c lvl pcid))
          = decide (pcid = some q.id) := by
        simp only [byParentAttr, mkNode]
        by_cases hpq : pcid = some q.id
        · simp [hpq]
        · simp [hpq]
      by_cases hA : dq ≤ lvl
      · -- no deeper call can reach q's children
        have hrhs : ¬ (lvl ≤ dq ∧ anc S (dq - lvl) q = some c) := by
          rintro ⟨h1, h2⟩
          have : dq = lvl := by omega
          subst this
          rw [Nat.sub_self] at h2
          exact hcq (Option.some.inj h2).symm
        have hzero : ∀ cj ∈ S,
            (if cj.parentCommentId = some c.id
              then (if lvl + 1 ≤ dq ∧ anc S (dq - (lvl + 1)) q = some cj
                then (S.filter (fun x => decide (x.parentCommentId = some q.id))).map
                       (fun x => Elem.commentBox (mkNode now uid x (dq + 1) (some q.id)))
                else [])
              else []) = ([] : List Elem) := by
          intro cj _
          by_cases hp : cj.parentCommentId = some c.id
          · rw [if_pos hp, if_neg (by
              rintro ⟨h1, _⟩
              omega)]
          · rw [if_neg hp]
        have hnil : S.flatMap (fun cj =>
            if cj.parentCommentId = some c.id
              then (if lvl + 1 ≤ dq ∧ anc S (dq - (lvl + 1)) q = some cj
                then (S.filter (fun x => decide (x.parentCommentId = some q.id))).map
                      (fun x => Elem.commentBox (mkNode now uid x (dq + 1) (some q.id)))
                else [])
              else []) = [] := List.flatMap_eq_nil_iff.mpr hzero
        rw [hnil, if_neg hrhs]
        by_cases hpq : pcid = some q.id
        · rw [if_pos hpq]
          rw [hheadval]
          simp [hpq]
        · rw [if_neg hpq]
          rw [hheadval]
          simp [hpq]
      · -- lvl + 1 ≤ dq
        have hB : lvl + 1 ≤ dq := by omega
        have hk1 : dq - lvl = (dq - (lvl + 1)) + 1 := by omega
        rcases Option.eq_none_or_eq_some (anc S (dq - (lvl + 1)) q) with hb | ⟨b, hb⟩
        · have hrhs : ¬ (lvl ≤ dq ∧ anc S (dq - lvl) q = some c) := by
            rintro ⟨_, h2⟩
            rw [hk1, anc] at h2
            rw [hb] at h2
            cases h2
          have hzero : ∀ cj ∈ S,
              (if cj.parentCommentId = some c.id
                then (if lvl + 1 ≤ dq ∧ anc S (dq - (lvl + 1)) q = some cj
                  then (S.filter (fun x => decide (x.parentCommentId = some q.id))).map
                         (fun x => Elem.commentBox (mkNode now uid x (dq + 1) (some q.id)))
                  else [])
                else []) = ([] : List Elem) := by
            intro cj _
            by_cases hp : cj.parentCommentId = some c.id
            · rw [if_pos hp, if_neg (by
                rintro ⟨_, h2⟩
                rw [hb] at h2
                cases h2)]
            · rw [if_neg hp]
          have hnil : S.flatMap (fun cj =>
              if cj.parentCommentId = some c.id
                then (if lvl + 1 ≤ dq ∧ anc S (dq - (lvl + 1)) q = some cj
                  then (S.filter (fun x => decide (x.parentCommentId = some q.id))).map
                        (fun x => Elem.commentBox (mkNode now uid x (dq + 1) (some q.id)))
                  else [])
                else []) = [] := List.flatMap_eq_nil_iff.mpr hzero
          rw [hnil, if_neg hrhs]
          by_cases hpq : pcid = some q.id
          · rw [if_pos hpq]
            rw [hheadval]
            simp [hpq]
          · rw [if_neg hpq]
            rw [hheadval]
            simp [hpq]
        · have hbS : b ∈ S := anc_mem S (dq - (lvl + 1)) q b hq hb
          by_cases hbp : b.parentCommentId = some c.id
          · -- b is the unique direct child of c on q's ancestor chain
            obtain ⟨hkle, hdb⟩ := anc_depth S (dq - (lvl + 1)) q b dq hq hdq hb
            have hdb' : depth S b = some (lvl + 1) := by
              rw [hdb]
              congr 1
              omega
            have hflat : S.flatMap (fun cj =>
                if cj.parentCommentId = some c.id
                  then (if lvl + 1 ≤ dq ∧ anc S (dq - (lvl + 1)) q = some cj
                    then (S.filter (fun x => decide (x.parentCommentId = some q.id))).map
                          (fun x => Elem.commentBox (mkNode now uid x (dq + 1) (some q.id)))
                    else [])
                  else [])
                = (S.filter (fun x => decide (x.parentCommentId = some q.id))).map
                    (fun x => Elem.commentBox (mkNode now uid x (dq + 1) (some q.id))) := by
              rw [flatMap_eq_of_unique _ _ b (List.Nodup.of_map _ hN) hbS (by
                intro a ha hne
                by_cases hp : a.parentCommentId = some c.id
                · rw [if_pos hp, if_neg (by
                    rintro ⟨_, h2⟩
                    rw [hb] at h2
                    exact hne (Option.some.inj h2).symm)]
                · rw [if_neg hp])]
              rw [if_pos hbp, if_pos ⟨hB, hb⟩]
            rw [hflat]
            have hrhs : anc S (dq - lvl) q = some c := by
              rw [hk1, anc, hb]
              simp only [Option.some_bind]
              unfold parentRec
              rw [hbp]
              exact findById_self S hN c hc
            rw [if_pos (⟨by omega, hrhs⟩ : lvl ≤ dq ∧ anc S (dq - lvl) q = some c)]
            have hpq : ¬ pcid = some q.id := by
              intro he
              -- c would be a child of q at depth dq + 1, contradicting lvl + 1 ≤ dq
              have hd1 : depth S c = some (dq + 1) :=
                depth_child S hN q c hq (hpc ▸ he) (hF c hc) dq hdq
              rw [hdc] at hd1
              have := Option.some.inj hd1
              omega
            rw [if_neg hpq]
            rw [hheadval]
            simp [hpq]
          · -- the chain leaves c elsewhere: nothing here is a child of q
            have hrhs : ¬ (lvl ≤ dq ∧ anc S (dq - lvl) q = some c) := by
              rintro ⟨_, h2⟩
              rw [hk1, anc, hb] at h2
              simp only [Option.some_bind] at h2
              obtain ⟨pid, hbp', _, haid⟩ := parentRec_some S b c h2
              rw [← haid] at hbp'
              exact hbp hbp'
            have hzero : ∀ cj ∈ S,
                (if cj.parentCommentId = some c.id
                  then (if lvl + 1 ≤ dq ∧ anc S (dq - (lvl + 1)) q = some cj
                    then (S.filter (fun x => decide (x.parentCommentId = some q.id))).map
                          (fun x => Elem.commentBox (mkNode now uid x (dq + 1) (some q.id)))
                    else [])
                  else []) = ([] : List Elem) := by
              intro cj _
              by_cases hp : cj.parentCommentId = some c.id
              · rw [if_pos hp, if_neg (by
                  rintro ⟨_, h2⟩
                  rw [hb] at h2
                  have hcb : b = cj := Option.some.inj h2
                  rw [← hcb] at hp
                  exact hbp hp)]
              · rw [if_neg hp]
            have hnil : S.flatMap (fun cj =>
                if cj.parentCommentId = some c.id
                  then (if lvl + 1 ≤ dq ∧ anc S (dq - (lvl + 1)) q = some cj
                    then (S.filter (fun x => decide (x.parentCommentId = some q.id))).map
                          (fun x => Elem.commentBox (mkNode now uid x (dq + 1) (some q.id)))
                    else [])
                  else []) = [] := List.flatMap_eq_nil_iff.mpr hzero
            rw [hnil, if_neg hrhs]
            by_cases hpq : pcid = some q.id
            · rw [if_pos hpq]
              rw [hheadval]
              simp [hpq]
            · rw [if_neg hpq]
              rw [hheadval]
              simp [hpq]

theorem findById_id :
    ∀ (L : List Comment) (pid : Int) (a : Comment), findById L pid = some a → a.id = pid := by
  intro L
  induction L with
  | nil =>
    intro pid a h
    cases h
  | cons x rest ih =>
    intro pid a h
    simp only [findById] at h
    by_cases hx : x.id = pid
    · rw [if_pos hx] at h
      cases h
      exact hx
    · rw [if_neg hx] at h
      exact ih pid a h

theorem findById_none_iff (L : List Comment) (pid : Int) :
    findById L pid = none ↔ ∀ c ∈ L, c.id ≠ pid := by
  induction L with
  | nil => simp [findById]
  | cons x rest ih =>
    simp only [findById]
    by_cases hx : x.id = pid
    · rw [if_pos hx]
      simp [hx]
    · rw [if_neg hx]
      rw [ih]
      constructor
      · intro h c hc
        rcases List.mem_cons.mp hc with rfl | hc'
        · exact hx
        · exact h c hc'
      · intro h c hc
        exact h c (List.mem_cons_of_mem _ hc)

theorem findById_perm (S L : List Comment) (hperm : S.Perm L)
    (hN : (L.map (·.id)).Nodup) (pid : Int) :
    findById S pid = findById L pid := by
  have hNS : (S.map (·.id)).Nodup := ((hperm.map _).nodup_iff).mpr hN
  cases hL : findById L pid with
  | none =>
    rw [findById_none_iff] at hL ⊢
    intro c hc
    exact hL c (hperm.mem_iff.mp hc)
  | some c =>
    have hcL : c ∈ L := findById_mem L pid c hL
    have hcid : c.id = pid := findById_id L pid c hL
    have hcS : c ∈ S := hperm.mem_iff.mpr hcL
    rw [← hcid]
    exact findById_self S hNS c hcS

theorem depthAux_perm (S L : List Comment) (hperm : S.Perm L)
    (hN : (L.map (·.id)).Nodup) :
    ∀ (f : Nat) (o : Option Int), depthAux S f o = depthAux L f o := by
  intro f
  induction f with
  | zero =>
    intro o
    cases o with
    | none => rw [depthAux_none, depthAux_none]
    | some pid => rw [depthAux_zero_some, depthAux_zero_some]
  | succ f ih =>
    intro o
    cases o with
    | none => rw [depthAux_none, depthAux_none]
    | some pid =>
      rw [depthAux_succ, depthAux_succ, findById_perm S L hperm hN pid]
      cases findById L pid with
      | none => rfl
      | some p =>
        simp only [ih p.parentCommentId]

theorem depth_perm (S L : List Comment) (hperm : S.Perm L)
    (hN : (L.map (·.id)).Nodup) (c : Comment) :
    depth S c = depth L c := by
  unfold depth
  rw [hperm.length_eq]
  exact depthAux_perm S L hperm hN L.length c.parentCommentId

theorem filter_orderedInsert_created (t : Int) (a : Comment) :
    ∀ l : List Comment,
      (List.orderedInsert createdGE a l).filter (fun c => decide (c.createdAt = t))
        = if a.createdAt = t then a :: l.filter (fun c => decide (c.createdAt = t))
          else l.filter (fun c => decide (c.createdAt = t)) := by
  intro l
  induction l with
  | nil =>
    by_cases h : a.createdAt = t <;> simp [List.orderedInsert, List.filter, h]
  | cons b l ih =>
    rw [List.orderedInsert]
    by_cases hr : createdGE a b
    · rw [if_pos hr]
      by_cases ha : a.createdAt = t <;> simp [List.filter_cons, ha]
    · rw [if_neg hr]
      by_cases ha : a.createdAt = t
      · have hbne : ¬ b.createdAt = t := by
          intro hbt
          apply hr
          unfold createdGE
          rw [hbt, ha]
        simp [List.filter_cons, hbne, ih, ha]
      · by_cases hb : b.createdAt = t <;> simp [List.filter_cons, hb, ih, ha]

theorem sortComments_filter_created (L : List Comment) (t : Int) :
    (sortComments L).filter (fun c => decide (c.createdAt = t))
      = L.filter (fun c => decide (c.createdAt = t)) := by
  unfold sortComments
  induction L with
  | nil => rfl
  | cons a l ih =>
    rw [List.insertionSort, filter_orderedInsert_created, ih]
    by_cases ha : a.createdAt = t <;> simp [List.filter_cons, ha]

theorem displayComments_dom_of_ne (prev : List Elem) (locked : Bool) (now uid : Int)
    (L : List Comment) (hL : L ≠ []) :
    (displayComments prev locked now uid L).1
      = (sortComments L).flatMap (fun c =>
          if c.parentCommentId = none then
            renderRec now uid (sortComments L) ((sortComments L).length + 2) 0 c none
          else []) := by
  unfold displayComments
  have h0 : (L.length == 0) = false := by
    have hne : L.length ≠ 0 := fun h => hL (List.length_eq_zero.mp h)
    simp [hne]
  simp [clearChildren, h0]

theorem displayComments_dom_nil (prev : List Elem) (locked : Bool) (now uid : Int) :
    (displayComments prev locked now uid []).1
      = if locked then ([] : List Elem)
        else [Elem.replyBox ⟨false, none, none, "", 0⟩] := by
  cases locked <;>
    simp [displayComments, clearChildren, sortComments, displayCommentReply,
      List.insertionSort]

/-- Claim C2: for every flat comment list forming a forest, every rendered
comment box is the box of a record of the list rendered at an indent level
equal to its depth along the `parentCommentId` chain, encoded as a left
margin of 10 pixels per level; roots have depth 0 and every child's depth
is its parent's depth plus 1. -/
theorem c2_indent_equals_depth :
    ∀ (L : List Comment) (prev : List Elem) (locked : Bool) (now uid : Int),
      IsForest L →
      (∀ r : RNode, Elem.commentBox r ∈ (displayComments prev locked now uid L).1 →
        ∃ c ∈ L, ∃ d : Nat, depth L c = some d
          ∧ r = mkNode now uid c d c.parentCommentId
          ∧ r.commentId = c.id ∧ r.marginLeft = d * 10)
      ∧ (∀ c ∈ L, c.parentCommentId = none → depth L c = some 0)
      ∧ (∀ c p, c ∈ L → p ∈ L → c.parentCommentId = some p.id →
          ∀ dp : Nat, depth L p = some dp → depth L c = some (dp + 1)) := by
  intro L prev locked now uid hforest
  obtain ⟨hN, hF⟩ := hforest
  refine ⟨?_, ?_, ?_⟩
  · intro r hr
    by_cases hL : L = []
    · subst hL
      rw [displayComments_dom_nil] at hr
      exfalso
      cases locked <;> simp at hr
    · rw [displayComments_dom_of_ne prev locked now uid L hL] at hr
      have hperm : (sortComments L).Perm L := List.perm_insertionSort createdGE L
      have hNS : ((sortComments L).map (·.id)).Nodup := ((hperm.map _).nodup_iff).mpr hN
      have hdeq : ∀ c, depth (sortComments L) c = depth L c :=
        fun c => depth_perm (sortComments L) L hperm hN c
      have hFS : ∀ c ∈ sortComments L, (depth (sortComments L) c).isSome := by
        intro c hc
        rw [hdeq c]
        exact hF c (hperm.mem_iff.mp hc)
      rw [List.mem_flatMap] at hr
      obtain ⟨c, hcS, hin⟩ := hr
      by_cases hroot : c.parentCommentId = none
      · rw [if_pos hroot] at hin
        have hd0 : depth (sortComments L) c = some 0 := by
          unfold depth
          rw [hroot, depthAux_none]
        obtain ⟨r', hr'S, d, hd, he⟩ :=
          renderRec_node_char now uid (sortComments L) hNS hFS
            ((sortComments L).length + 2) 0 c none (Elem.commentBox r)
            hcS hd0 hroot.symm hin
        refine ⟨r', hperm.mem_iff.mp hr'S, d, by rw [← hdeq r']; exact hd, ?_, ?_, ?_⟩
        · exact (Elem.commentBox.injEq _ _).mp he.symm |>.symm
        · have : r = mkNode now uid r' d r'.parentCommentId :=
            (Elem.commentBox.injEq _ _).mp he.symm |>.symm
          rw [this]
          rfl
        · have : r = mkNode now uid r' d r'.parentCommentId :=
            (Elem.commentBox.injEq _ _).mp he.symm |>.symm
          rw [this]
          rfl
      · rw [if_neg hroot] at hin
        cases hin
  · intro c _ hc
    unfold depth
    rw [hc, depthAux_none]
  · intro c p hc hp hpar dp hdp
    exact depth_child L hN p c hp hpar (hF c hc) dp hdp

/-- Claim C3: for every flat comment list forming a forest, the rendered
root boxes are exactly the roots of the stable descending-`createdAt` sort
of the list, in that order (non-increasing `createdAt`, ties broken by
input order), and each comment's direct children are rendered in the order
they appear in the sorted flat list, not re-sorted. -/
theorem c3_render_order :
    ∀ (L : List Comment) (prev : List Elem) (locked : Bool) (now uid : Int),
      IsForest L →
      (displayComments prev locked now uid L).1.filter isRootBoxB
          = ((sortComments L).filter (fun c => decide (c.parentCommentId = none))).map
              (fun c => Elem.commentBox (mkNode now uid c 0 none))
      ∧ List.Pairwise createdGE
          ((sortComments L).filter (fun c => decide (c.parentCommentId = none)))
      ∧ (∀ t : Int, (sortComments L).filter (fun c => decide (c.createdAt = t))
          = L.filter (fun c => decide (c.createdAt = t)))
      ∧ (∀ q ∈ L, ∃ dq : Nat, depth L q = some dq ∧
          (displayComments prev locked now uid L).1.filter (byParentAttr q.id)
            = ((sortComments L).filter
                (fun cj => decide (cj.parentCommentId = some q.id))).map
                (fun cj => Elem.commentBox (mkNode now uid cj (dq + 1) (some q.id)))) := by
  intro L prev locked now uid hforest
  obtain ⟨hN, hF⟩ := hforest
  have hperm : (sortComments L).Perm L := List.perm_insertionSort createdGE L
  have hNS : ((sortComments L).map (·.id)).Nodup := ((hperm.map _).nodup_iff).mpr hN
  have hdeq : ∀ c, depth (sortComments L) c = depth L c :=
    fun c => depth_perm (sortComments L) L hperm hN c
  have hFS : ∀ c ∈ sortComments L, (depth (sortComments L) c).isSome := by
    intro c hc
    rw [hdeq c]
    exact hF c (hperm.mem_iff.mp hc)
  refine ⟨?_, ?_, ?_, ?_⟩
  · by_cases hL : L = []
    · subst hL
      rw [displayComments_dom_nil]
      cases locked <;> simp [sortComments, List.insertionSort, isRootBoxB]
    · rw [displayComments_dom_of_ne prev locked now uid L hL, List.filter_flatMap]
      have hch : ∀ c ∈ sortComments L,
          (if c.parentCommentId = none then
            renderRec now uid (sortComments L) ((sortComments L).length + 2) 0 c none
          else []).filter isRootBoxB
          = if c.parentCommentId = none
            then [Elem.commentBox (mkNode now uid c 0 none)] else [] := by
        intro c _
        by_cases hroot : c.parentCommentId = none
        · rw [if_pos hroot, if_pos hroot]
          exact renderRec_filter_root_none now uid (sortComments L)
            ((sortComments L).length + 1) 0 c
        · rw [if_neg hroot, if_neg hroot]
          rfl
      rw [flatMap_congr_mem hch, flatMap_ite_singleton]
  · exact List.Pairwise.sublist (List.filter_sublist _)
      (List.sorted_insertionSort createdGE L)
  · intro t
    exact sortComments_filter_created L t
  · intro q hqL
    have hqS : q ∈ sortComments L := hperm.mem_iff.mpr hqL
    obtain ⟨dq, hdq⟩ := Option.isSome_iff_exists.mp (hF q hqL)
    have hdqS : depth (sortComments L) q = some dq := by
      rw [hdeq q]
      exact hdq
    refine ⟨dq, hdq, ?_⟩
    have hL : L ≠ [] := List.ne_nil_of_mem hqL
    rw [displayComments_dom_of_ne prev locked now uid L hL, List.filter_flatMap]
    have hdqle : dq ≤ (sortComments L).length := by
      have := depthAux_le (sortComments L) (sortComments L).length q.parentCommentId dq hdqS
      exact this
    obtain ⟨t, ht, htS, htroot⟩ := root_anc (sortComments L) dq q hqS hdqS
    have hch : ∀ c ∈ sortComments L,
        (if c.parentCommentId = none then
          renderRec now uid (sortComments L) ((sortComments L).length + 2) 0 c none
        else []).filter (byParentAttr q.id)
        = if c.parentCommentId = none then
            (if 0 ≤ dq ∧ anc (sortComments L) (dq - 0) q = some c
              then ((sortComments L).filter
                  (fun cj => decide (cj.parentCommentId = some q.id))).map
                  (fun cj => Elem.commentBox (mkNode now uid cj (dq + 1) (some q.id)))
              else [])
          else [] := by
      intro c hcS
      by_cases hroot : c.parentCommentId = none
      · rw [if_pos hroot, if_pos hroot]
        have hd0 : depth (sortComments L) c = some 0 := by
          unfold depth
          rw [hroot, depthAux_none]
        rw [renderRec_filter_byParent now uid (sortComments L) hNS hFS q hqS dq hdqS
          ((sortComments L).length + 2) 0 c none hcS hd0 hroot.symm (by omega)]
        rw [if_neg (by simp), List.nil_append]
      · rw [if_neg hroot, if_neg hroot]
        rfl
    rw [flatMap_congr_mem hch]
    rw [flatMap_eq_of_unique _ _ t (List.Nodup.of_map _ hNS) htS (by
      intro a haS hne
      by_cases hroot : a.parentCommentId = none
      · rw [if_pos hroot, if_neg (by
          rintro ⟨_, h2⟩
          rw [Nat.sub_zero, ht] at h2
          exact hne (Option.some.inj h2).symm)]
      · rw [if_neg hroot])]
    rw [if_pos htroot, if_pos ⟨Nat.zero_le _, by rw [Nat.sub_zero]; exact ht⟩]

theorem c1_cascading_delete_witness :
    (⟨1, none, 5, 0, false, "d", "t", 0, none, false⟩ : RNode).marginLeft = 0 * 10
    ∧ (deleteChildrenComments false []
        (Elem.commentBox ⟨1, none, 5, 0, false, "d", "t", 0, none, false⟩)
        [Elem.commentBox ⟨2, some 1, 5, 0, false, "d", "t", 10, none, false⟩,
         Elem.commentBox ⟨3, none, 5, 0, false, "d", "t", 0, none, false⟩]).deletes
      = ([Elem.commentBox ⟨2, some 1, 5, 0, false, "d", "t", 10, none, false⟩,
          Elem.commentBox ⟨3, none, 5, 0, false, "d", "t", 0, none, false⟩].takeWhile
            (strictlyDeeper (0 * 10))).map elemDataCommentId
        ++ [some (⟨1, none, 5, 0, false, "d", "t", 0, none, false⟩ : RNode).commentId] :=
  ⟨rfl,
    (c1_cascading_delete false []
      [Elem.commentBox ⟨2, some 1, 5, 0, false, "d", "t", 10, none, false⟩,
       Elem.commentBox ⟨3, none, 5, 0, false, "d", "t", 0, none, false⟩]
      ⟨1, none, 5, 0, false, "d", "t", 0, none, false⟩ 0 rfl (by
        intro e he
        rcases List.mem_cons.mp he with rfl | he
        · exact ⟨_, 1, rfl, rfl⟩
        · rcases List.mem_cons.mp he with rfl | he
          · exact ⟨_, 0, rfl, rfl⟩
          · cases he)).1⟩

theorem c2_indent_equals_depth_witness :
    IsForest [⟨1, none, 10, "a", 100, []⟩, ⟨2, some 1, 11, "b", 150, []⟩,
      ⟨3, none, 12, "c", 200, []⟩]
    ∧ depth [⟨1, none, 10, "a", 100, []⟩, ⟨2, some 1, 11, "b", 150, []⟩,
        ⟨3, none, 12, "c", 200, []⟩] ⟨1, none, 10, "a", 100, []⟩ = some 0 :=
  ⟨by decide,
    (c2_indent_equals_depth
      [⟨1, none, 10, "a", 100, []⟩, ⟨2, some 1, 11, "b", 150, []⟩,
        ⟨3, none, 12, "c", 200, []⟩] [] false 1000 5 (by decide)).2.1
      ⟨1, none, 10, "a", 100, []⟩ (by decide) rfl⟩

theorem c3_render_order_witness :
    IsForest [⟨1, none, 10, "a", 100, []⟩, ⟨2, some 1, 11, "b", 150, []⟩,
      ⟨3, none, 12, "c", 200, []⟩]
    ∧ (displayComments [] false 1000 5
        [⟨1, none, 10, "a", 100, []⟩, ⟨2, some 1, 11, "b", 150, []⟩,
          ⟨3, none, 12, "c", 200, []⟩]).1.filter isRootBoxB
      = ((sortComments [⟨1, none, 10, "a", 100, []⟩, ⟨2, some 1, 11, "b", 150, []⟩,
          ⟨3, none, 12, "c", 200, []⟩]).filter
            (fun c => decide (c.parentCommentId = none))).map
          (fun c => Elem.commentBox (mkNode 1000 5 c 0 none)) :=
  ⟨by decide,
    (c3_render_order
      [⟨1, none, 10, "a", 100, []⟩, ⟨2, some 1, 11, "b", 150, []⟩,
        ⟨3, none, 12, "c", 200, []⟩] [] false 1000 5 (by decide)).1⟩

theorem c4_reply_slot_position_witness :
    (⟨7, none, 5, 0, false, "d", "t", 20, none, false⟩ : RNode).marginLeft = 2 * 10
    ∧ displayCommentReply
        [Elem.commentBox ⟨7, none, 5, 0, false, "d", "t", 20, none, false⟩]
        (some 7) (some 7) "hey" false
      = some [Elem.commentBox ⟨7, none, 5, 0, false, "d", "t", 20, none, false⟩,
          Elem.replyBox ⟨false, some 7, some 7, "hey", 30⟩] :=
  ⟨rfl,
    (c4_reply_slot_position [] [] ⟨7, none, 5, 0, false, "d", "t", 20, none, false⟩ 2
      "hey" false rfl (by decide)).1⟩

theorem c6_at_most_one_hidden_witness :
    hiddenBoxIds [Elem.commentBox ⟨1, none, 5, 0, false, "d", "t", 0, some "block", true⟩,
      Elem.replyBox ⟨false, some 1, some 1, "", 10⟩] = [] :=
  (c6_at_most_one_hidden
    [Elem.commentBox ⟨1, none, 5, 0, false, "d", "t", 0, some "none", true⟩]
    "inline-block" 1 (by decide) (by decide)).1
    ⟨[Elem.commentBox ⟨1, none, 5, 0, false, "d", "t", 0, some "block", true⟩,
      Elem.replyBox ⟨false, some 1, some 1, "", 10⟩], "inline-block", [], none⟩
    (by decide)
